import Mathlib

/-!
Verification of the `cat-and-ball` repository: a single-endpoint animation
server (Fastify variant in `server.js`, Cloudflare-Worker variants) whose core
is a bounded, time-expiring visitor-state store mapping a visitor fingerprint
to the next frame index, plus deterministic daily animation selection and
numeric frame-file ordering.

The JavaScript `Map` (`visitorFrames`, `key -> { idx, at }`) is embedded as an
association list that preserves insertion order, exactly as a JS `Map` does:
`set` on an existing key updates the value in place (keeping the key's
position), `set` on a fresh key appends at the end, and iteration (hence the
eviction loop and the TTL sweep) visits entries in insertion order.
Timestamps (`Date.now()`) are naturals; machine arithmetic cannot overflow in
any reachable range, so `Nat` is faithful.
-/

namespace CatAndBall

/-- One value of the visitor map: `{ idx, at }` in `server.js` line 22
(`at` is rendered `accessedAt` because `at` is a Lean keyword). -/
structure Entry where
  idx : Nat
  accessedAt : Nat
deriving DecidableEq

/-- The visitor store: a JS `Map` as an insertion-ordered association list. -/
abbrev Store := List (String × Entry)

/-- `const MAX_VISITORS = 10_000` (`server.js` line 19). -/
def MAX_VISITORS : Nat := 10000

/-- `const TTL_MS = 3_600_000` (`server.js` line 20). -/
def TTL_MS : Nat := 3600000

/-- `visitorFrames.get(key)`: first (and, under the key-nodup invariant, only)
entry stored for `key`. -/
def mapGet : Store → String → Option Entry
  | [], _ => none
  | p :: rest, k => if p.1 = k then some p.2 else mapGet rest k

/-- `visitorFrames.set(key, v)` with JS `Map` semantics: an existing key keeps
its position in insertion order and gets the new value; a fresh key is
appended at the end. -/
def mapSet : Store → String → Entry → Store
  | [], k, v => [(k, v)]
  | p :: rest, k, v => if p.1 = k then (k, v) :: rest else p :: mapSet rest k v

/-- The eviction loop of `nextFrameIndex` (`server.js` lines 33-39): when the
map exceeds `MAX_VISITORS`, delete `size - MAX_VISITORS` keys in iteration
(= insertion) order, i.e. drop the oldest-inserted entries from the front. -/
def evictOver (s : Store) : Store :=
  if MAX_VISITORS < s.length then s.drop (s.length - MAX_VISITORS) else s

/-- `const idx = prev ? prev.idx : 0` (`server.js` line 28): the stored prior
index, `0` when the key is absent. -/
def entryIdx (s : Store) (key : String) : Nat :=
  ((mapGet s key).map Entry.idx).getD 0

/-- `nextFrameIndex(key, frameCount)` (`server.js` lines 23-41), with the
ambient `Date.now()` and the global map passed explicitly.  Returns the pair
(returned index, map after the call).  `frameCount <= 0` returns `0` with no
mutation; otherwise the stored prior index is returned as-is and
`(idx + 1) % frameCount` is stored, then the eviction loop runs. -/
def nextFrameIndex (key : String) (frameCount : Nat) (now : Nat) (s : Store) :
    Nat × Store :=
  if frameCount = 0 then (0, s)
  else
    let idx := entryIdx s key
    let next := (idx + 1) % frameCount
    (idx, evictOver (mapSet s key ⟨next, now⟩))

/-- The background TTL sweep (`server.js` lines 44-49): delete every entry
with `now - v.at > TTL_MS`; i.e. keep exactly those with
`now - v.at <= TTL_MS`.  (JS subtraction can be negative where `Nat`
subtraction truncates at `0`, but both sides of the comparison then agree:
a negative difference is never `> TTL_MS`, and neither is `0`.) -/
def sweep (now : Nat) (s : Store) : Store :=
  s.filter fun p => decide (now - p.2.accessedAt ≤ TTL_MS)

/-- Key-uniqueness invariant of the JS `Map` embedding: the listed keys are
pairwise distinct. -/
def WF (s : Store) : Prop := (s.map Prod.fst).Nodup

/-- One request in a trace: (visitor key, frameCount passed, Date.now()). -/
abbrev Req := String × Nat × Nat

/-- Run a trace of `nextFrameIndex` calls left to right, recording for each
call the key it was made for and the index it returned. -/
def runTrace : List Req → Store → List (String × Nat) × Store
  | [], s => ([], s)
  | (k, n, tm) :: rest, s =>
    let r := nextFrameIndex k n tm s
    let rr := runTrace rest r.2
    ((k, r.1) :: rr.1, rr.2)

/-- The indices a given fingerprint observes in a run of a trace. -/
def outputsFor (fp : String) (t : List Req) (s : Store) : List Nat :=
  (((runTrace t s).1).filter fun p => p.1 = fp).map Prod.snd

/-- The sub-trace of the requests made for one fingerprint. -/
def traceFor (fp : String) (t : List Req) : List Req :=
  t.filter fun r => r.1 = fp

/-- JS array indexing `l[i]` with a possibly negative (or too large) index:
`undefined` — here `none` — outside `[0, l.length)`. -/
def jsIndex (l : List Nat) (i : Int) : Option Nat :=
  if 0 ≤ i then l.get? i.toNat else none

/-- `getAnimationForToday()` (`server.js` lines 72-83) on its two inputs: the
sorted numeric directory names `animDirs` and
`days = Math.floor(Date.now() / 86_400_000) + dayOffset` (an integer; the
configurable `DAY_OFFSET` may be negative).  An empty directory list throws
(`none` here); otherwise the result is `animDirs[days % animDirs.length]`,
where JS `%` is the truncated remainder (sign of the dividend), i.e.
`Int.tmod` — so a negative `days` indexes at a negative position
(`undefined`, here `none`). -/
def getAnimationForToday (animDirs : List Nat) (days : Int) : Option Nat :=
  if animDirs.length = 0 then none
  else jsIndex animDirs (Int.tmod days (animDirs.length : Int))

/-- Modelled from the spec's formula for `SelectForToday`:
`selected = sortedIds[ (epochDays + offsetDays) mod len(sortedIds) ]` with the
mathematical (nonnegative) remainder, stated for comparison with
`getAnimationForToday`. -/
def selectForTodaySpec (sortedIds : List Nat) (days : Int) : Option Nat :=
  sortedIds.get? (days % (sortedIds.length : Int)).toNat

/-- JS `parseInt(s, 10)` restricted to the shapes `loadFrames` feeds it
(strings led by decimal digits), on the character list of the string: the
numeric value of the leading digit run. -/
def leadingNat (l : List Char) : Nat :=
  (l.takeWhile Char.isDigit).foldl (fun acc c => acc * 10 + (c.toNat - 48)) 0

/-- `parseInt(f.slice(5), 10)` from the sort comparator of `loadFrames`
(`server.js` lines 93-98): the frame sequence number embedded after the
5-character `"frame"` file-name stem. -/
def frameNum (f : String) : Nat := leadingNat (f.data.drop 5)

/-- Does `needle` occur at the head of `hay`? (helper for JS `includes` /
`endsWith`). -/
def strStartsWithChars : List Char → List Char → Bool
  | [], _ => true
  | _ :: _, [] => false
  | c :: cs, d :: ds => c = d && strStartsWithChars cs ds

/-- JS `s.endsWith(pat)`: is `pat` a suffix of `s`? -/
def jsEndsWith (s pat : String) : Bool :=
  strStartsWithChars pat.data.reverse s.data.reverse

/-- The pure core of `loadFrames` (`server.js` lines 91-98): keep the
`.svg.gz` files and sort them by the embedded numeric frame number
(`.sort((a, b) => numA - numB)`, a stable comparator sort — embedded here as
a stable sort by the key `frameNum`). -/
def loadFrames (files : List String) : List String :=
  (files.filter fun f => jsEndsWith f ".svg.gz").insertionSort
    fun a b => frameNum a ≤ frameNum b

/-- `const visitorKey = req.ip + "|" + (req.headers["user-agent"] || "")`
(`server.js` line 118): no truncation of either part. -/
def visitorKey (ip ua : String) : String := ip ++ "|" ++ ua

/-- JS `s.slice(0, e)` with an `Int` end: a negative end counts back from the
end of the string (`max(len + e, 0)`). -/
def jsSliceEnd (s : String) (e : Int) : String :=
  s.take (if 0 ≤ e then e.toNat else s.length - (-e).toNat)

/-- The visitor key of the `part_000` variant (lines 125-131): truncate the
user agent when the combined length exceeds 511. -/
def visitorKeyCapped (ip ua : String) : String :=
  if 511 < ip.length + ua.length then ip ++ "|" ++ jsSliceEnd ua (511 - (ip.length : Int))
  else ip ++ "|" ++ ua

/-- The pre-hash input of `hashVisitorKey` (`worker.js` lines 14-15):
`ip + "|" + ua.slice(0, 500)`; the subsequent SHA-256 digest is an external
crypto primitive and is not modelled. -/
def hashVisitorKeyInput (ip ua : String) : String := ip ++ "|" ++ ua.take 500

/-- `getNextFrameIndex(env, visitorHash, frameCount)` of the worker variants
(`worker.js` lines 57-74), with the external KV entry for `visitorHash`
passed in and the written-back index returned: `frameCount <= 0` returns `0`
without writing; otherwise the stored index (default `0`) is returned as-is
and `(currentIdx + 1) % frameCount` is written back. -/
def getNextFrameIndex (stored : Option Nat) (frameCount : Nat) : Nat × Option Nat :=
  if frameCount = 0 then (0, stored)
  else
    let currentIdx := stored.getD 0
    (currentIdx, some ((currentIdx + 1) % frameCount))

/-- An HTTP response, reduced to what the claims inspect: the status code and
the body (`none` models sending an `undefined` payload). -/
structure Response where
  status : Nat
  body : Option String
deriving DecidableEq

/-- The `GET /` handler of `server.js` (lines 115-134), with the visitor key
already computed: an empty frame store answers `503 "frames-unavailable"`
without touching the visitor map; otherwise `nextFrameIndex` picks the frame
to send. -/
def handleRoot (frames : List String) (key : String) (now : Nat) (s : Store) :
    Response × Store :=
  if frames.length = 0 then ({ status := 503, body := some "frames-unavailable" }, s)
  else
    let r := nextFrameIndex key frames.length now s
    ({ status := 200, body := frames.get? r.1 }, r.2)

/-- Does `needle` occur anywhere in `hay`? (helper for JS `includes`). -/
def charsContains : List Char → List Char → Bool
  | [], needle => needle.isEmpty
  | c :: t, needle => strStartsWithChars needle (c :: t) || charsContains t needle

/-- JS `s.includes(pat)`: substring containment. -/
def jsIncludes (s pat : String) : Bool := charsContains s.data pat.data

/-- The Camo detection of the `part_001` worker (lines 113-114):
`ua.includes("github-camo") || request.headers.get("via")?.includes("github-camo")`
— an absent `Via` header makes the second disjunct `undefined`, i.e. falsy. -/
def isGitHubCamo (ua : String) (via : Option String) : Bool :=
  jsIncludes ua "github-camo" || ((via.map fun v => jsIncludes v "github-camo").getD false)

/-- The visitor-hash selection of the `part_001` worker (lines 116-125): Camo
requests all get the fixed key `"github-camo-global"`; direct requests get the
hash of their own address (plus query) and user agent, passed in here as
`hashed` since the digest itself is external crypto. -/
def chooseVisitorHash (ua : String) (via : Option String) (hashed : String) : String :=
  if isGitHubCamo ua via then "github-camo-global" else hashed

/-! Basic lemmas about the map embedding. -/

theorem mapGet_mapSet_self (s : Store) (k : String) (v : Entry) :
    mapGet (mapSet s k v) k = some v := by
  induction s with
  | nil => simp [mapSet, mapGet]
  | cons p rest ih =>
    by_cases h : p.1 = k
    · simp [mapSet, h, mapGet]
    · simp [mapSet, h, mapGet, ih]

theorem mapGet_mapSet_ne (s : Store) {k k' : String} (v : Entry) (h : k' ≠ k) :
    mapGet (mapSet s k v) k' = mapGet s k' := by
  induction s with
  | nil =>
    simp only [mapSet, mapGet]
    rw [if_neg fun hk : k = k' => h hk.symm]
  | cons p rest ih =>
    by_cases hp : p.1 = k
    · simp only [mapSet, if_pos hp, mapGet]
      rw [if_neg fun hk : k = k' => h hk.symm,
        if_neg fun hk : p.1 = k' => h ((hp.symm.trans hk).symm)]
    · simp only [mapSet, if_neg hp, mapGet]
      by_cases hp' : p.1 = k'
      · rw [if_pos hp', if_pos hp']
      · rw [if_neg hp', if_neg hp', ih]

theorem mapGet_eq_none_iff (s : Store) (k : String) :
    mapGet s k = none ↔ k ∉ s.map Prod.fst := by
  induction s with
  | nil => simp [mapGet]
  | cons p rest ih =>
    by_cases h : p.1 = k
    · simp only [mapGet, if_pos h, List.map_cons, List.mem_cons]
      constructor
      · intro hc; cases hc
      · intro hc; exact (hc (Or.inl h.symm)).elim
    · simp only [mapGet, if_neg h, List.map_cons, List.mem_cons]
      rw [ih]
      constructor
      · intro hn
        rintro (hk | hk)
        · exact h hk.symm
        · exact hn hk
      · intro hn hk
        exact hn (Or.inr hk)

theorem keys_mapSet_present (s : Store) (k : String) (v : Entry)
    (h : mapGet s k ≠ none) :
    (mapSet s k v).map Prod.fst = s.map Prod.fst := by
  induction s with
  | nil => simp [mapGet] at h
  | cons p rest ih =>
    by_cases hp : p.1 = k
    · simp [mapSet, hp]
    · simp [mapGet, hp] at h
      simp [mapSet, hp, ih h]

theorem keys_mapSet_absent (s : Store) (k : String) (v : Entry)
    (h : mapGet s k = none) :
    (mapSet s k v).map Prod.fst = s.map Prod.fst ++ [k] := by
  induction s with
  | nil => simp [mapSet]
  | cons p rest ih =>
    by_cases hp : p.1 = k
    · simp [mapGet, hp] at h
    · simp [mapGet, hp] at h
      simp [mapSet, hp, ih h]

theorem length_mapSet_le (s : Store) (k : String) (v : Entry) :
    (mapSet s k v).length ≤ s.length + 1 := by
  induction s with
  | nil => simp [mapSet]
  | cons p rest ih =>
    by_cases hp : p.1 = k
    · simp [mapSet, hp]
    · simpa [mapSet, hp] using ih

theorem length_mapSet_present (s : Store) (k : String) (v : Entry)
    (h : mapGet s k ≠ none) :
    (mapSet s k v).length = s.length := by
  have := keys_mapSet_present s k v h
  calc (mapSet s k v).length = ((mapSet s k v).map Prod.fst).length := by simp
    _ = (s.map Prod.fst).length := by rw [this]
    _ = s.length := by simp

theorem WF_mapSet (s : Store) (k : String) (v : Entry) (h : WF s) :
    WF (mapSet s k v) := by
  unfold WF at h ⊢
  by_cases hk : mapGet s k = none
  · rw [keys_mapSet_absent s k v hk]
    have hnm : k ∉ s.map Prod.fst := (mapGet_eq_none_iff s k).mp hk
    refine h.append (List.nodup_singleton k) ?_
    intro x hx hx'
    rw [List.mem_singleton] at hx'
    subst hx'
    exact hnm hx
  · rw [keys_mapSet_present s k v hk]; exact h

theorem WF_evictOver (s : Store) (h : WF s) : WF (evictOver s) := by
  unfold WF at h ⊢
  unfold evictOver
  split
  · rw [List.map_drop]
    exact h.sublist (List.drop_sublist _ _)
  · exact h

theorem length_evictOver_le (s : Store) : (evictOver s).length ≤ MAX_VISITORS := by
  unfold evictOver
  split
  · rw [List.length_drop]; omega
  · omega

theorem evictOver_eq_of_le (s : Store) (h : s.length ≤ MAX_VISITORS) :
    evictOver s = s := by
  unfold evictOver
  rw [if_neg]; omega

theorem mapGet_append_last (l : Store) (k : String) (v : Entry)
    (h : k ∉ l.map Prod.fst) : mapGet (l ++ [(k, v)]) k = some v := by
  induction l with
  | nil => simp [mapGet]
  | cons p rest ih =>
    simp only [List.map_cons, List.mem_cons, not_or] at h
    rw [List.cons_append]
    simp only [mapGet]
    rw [if_neg fun hk : p.1 = k => h.1 hk.symm, ih h.2]

theorem mapGet_evictOver_append (s : Store) (k : String) (v : Entry)
    (h : k ∉ s.map Prod.fst) :
    mapGet (evictOver (s ++ [(k, v)])) k = some v := by
  unfold evictOver
  split
  · next hlt =>
    simp only [List.length_append, List.length_singleton] at hlt
    have hle : s.length + 1 - MAX_VISITORS ≤ s.length := by
      have : 0 < MAX_VISITORS := by decide
      omega
    rw [List.drop_append_eq_append_drop]
    have hz : s.length + 1 - MAX_VISITORS - s.length = 0 := by omega
    simp only [List.length_append, List.length_singleton, hz, List.drop_zero]
    apply mapGet_append_last
    intro hmem
    rw [List.map_drop] at hmem
    exact h ((List.drop_sublist _ _).subset hmem)
  · exact mapGet_append_last s k v h

/-! Per-call facts about `nextFrameIndex`. -/

theorem nextFrameIndex_fst (k : String) (n now : Nat) (s : Store) (hn : n ≠ 0) :
    (nextFrameIndex k n now s).1 = entryIdx s k := by
  simp [nextFrameIndex, hn]

theorem nextFrameIndex_snd (k : String) (n now : Nat) (s : Store) (hn : n ≠ 0) :
    (nextFrameIndex k n now s).2 =
      evictOver (mapSet s k ⟨(entryIdx s k + 1) % n, now⟩) := by
  simp [nextFrameIndex, hn]

theorem WF_nextFrameIndex (k : String) (n now : Nat) (s : Store) (h : WF s) :
    WF (nextFrameIndex k n now s).2 := by
  by_cases hn : n = 0
  · simpa [nextFrameIndex, hn] using h
  · rw [nextFrameIndex_snd k n now s hn]
    exact WF_evictOver _ (WF_mapSet _ _ _ h)

theorem length_nextFrameIndex_le (k : String) (n now : Nat) (s : Store)
    (hn : n ≠ 0) : ((nextFrameIndex k n now s).2).length ≤ MAX_VISITORS := by
  rw [nextFrameIndex_snd k n now s hn]
  exact length_evictOver_le _

theorem mapGet_nextFrameIndex_absent (k : String) (n now : Nat) (s : Store)
    (hn : n ≠ 0) (h : mapGet s k = none) :
    mapGet (nextFrameIndex k n now s).2 k = some ⟨1 % n, now⟩ := by
  rw [nextFrameIndex_snd k n now s hn]
  have hidx : entryIdx s k = 0 := by simp [entryIdx, h]
  rw [hidx]
  have hset : mapSet s k ⟨(0 + 1) % n, now⟩ = s ++ [(k, ⟨(0 + 1) % n, now⟩)] := by
    clear hidx
    induction s with
    | nil => simp [mapSet]
    | cons p rest ih =>
      by_cases hp : p.1 = k
      · simp [mapGet, hp] at h
      · simp [mapGet, hp] at h
        simp [mapSet, hp, ih h]
  rw [hset]
  simpa using mapGet_evictOver_append s k _ ((mapGet_eq_none_iff s k).mp h)

theorem mapGet_nextFrameIndex_present (k : String) (n now : Nat) (s : Store)
    (e : Entry) (hn : n ≠ 0) (h : mapGet s k = some e)
    (hlen : s.length ≤ MAX_VISITORS) :
    mapGet (nextFrameIndex k n now s).2 k = some ⟨(e.idx + 1) % n, now⟩ := by
  rw [nextFrameIndex_snd k n now s hn]
  have hidx : entryIdx s k = e.idx := by simp [entryIdx, h]
  rw [hidx]
  have hns : mapGet s k ≠ none := by simp [h]
  rw [evictOver_eq_of_le _ (by rw [length_mapSet_present s k _ hns]; exact hlen)]
  exact mapGet_mapSet_self s k _

theorem mapGet_nextFrameIndex_ne (k k' : String) (n now : Nat) (s : Store)
    (hn : n ≠ 0) (hne : k' ≠ k) (hlen : s.length + 1 ≤ MAX_VISITORS) :
    mapGet (nextFrameIndex k n now s).2 k' = mapGet s k' := by
  rw [nextFrameIndex_snd k n now s hn]
  rw [evictOver_eq_of_le _ (le_trans (length_mapSet_le s k _) hlen)]
  exact mapGet_mapSet_ne s _ hne

theorem succ_mod_mod (i n : Nat) : (i % n + 1) % n = (i + 1) % n := by
  conv_rhs => rw [Nat.add_mod]
  rw [Nat.add_mod (i % n) 1 n, Nat.mod_mod_of_dvd i (dvd_refl n)]

/-- Inductive core for the cyclic-sequence property: from a store whose entry
for `fp` holds index `i % n`, a trace of `fp`-requests with frame count `n`
returns `(i + 0) % n, (i + 1) % n, …`. -/
theorem runTrace_cycle_aux (fp : String) (n : Nat) (hn : n ≠ 0) :
    ∀ (t : List Req) (s : Store) (i : Nat) (e : Entry),
      WF s → s.length ≤ MAX_VISITORS → mapGet s fp = some e → e.idx = i % n →
      (∀ r ∈ t, r.1 = fp ∧ r.2.1 = n) →
      ((runTrace t s).1).map Prod.snd =
        (List.range t.length).map fun j => (i + j) % n := by
  intro t
  induction t with
  | nil =>
    intro s i e _ _ _ _ _
    simp [runTrace]
  | cons r rest ih =>
    intro s i e hwf hlen hget hidx hall
    obtain ⟨hk, hc⟩ := hall r (List.mem_cons_self r rest)
    obtain ⟨k, nn, tm⟩ := r
    simp only at hk hc
    subst hk
    subst hc
    simp only [runTrace, List.map_cons, List.length_cons]
    have hout : (nextFrameIndex k nn tm s).1 = i % nn := by
      rw [nextFrameIndex_fst k nn tm s hn]
      simp [entryIdx, hget, hidx]
    have hpost : mapGet (nextFrameIndex k nn tm s).2 k =
        some ⟨(i + 1) % nn, tm⟩ := by
      rw [mapGet_nextFrameIndex_present k nn tm s e hn hget hlen, hidx,
        succ_mod_mod]
    have htail := ih (nextFrameIndex k nn tm s).2 (i + 1) ⟨(i + 1) % nn, tm⟩
      (WF_nextFrameIndex k nn tm s hwf) (length_nextFrameIndex_le k nn tm s hn)
      hpost rfl (fun r hr => hall r (List.mem_cons_of_mem _ hr))
    rw [htail, hout, List.range_succ_eq_map, List.map_cons, List.map_map]
    have hfun : ((fun j => (i + j) % nn) ∘ Nat.succ) = fun j => (i + 1 + j) % nn := by
      funext j
      simp only [Function.comp]
      congr 1
      omega
    rw [hfun]
    simp

theorem mapGet_nextFrameIndex_self (k : String) (n now : Nat) (s : Store)
    (hn : n ≠ 0) (hlen : s.length ≤ MAX_VISITORS) :
    mapGet (nextFrameIndex k n now s).2 k = some ⟨(entryIdx s k + 1) % n, now⟩ := by
  cases hc : mapGet s k with
  | none =>
    rw [mapGet_nextFrameIndex_absent k n now s hn hc]
    simp [entryIdx, hc]
  | some e =>
    rw [mapGet_nextFrameIndex_present k n now s e hn hc hlen]
    simp [entryIdx, hc]

theorem nodup_all_eq_length_le_one {α : Type _} (l : List α) (c : α)
    (hn : l.Nodup) (h : ∀ x ∈ l, x = c) : l.length ≤ 1 := by
  cases l with
  | nil => simp
  | cons x xs =>
    cases xs with
    | nil => simp
    | cons y ys =>
      exfalso
      have hx : x = c := h x (by simp)
      have hy : y = c := h y (by simp)
      have hxy : x ∉ y :: ys := (List.nodup_cons.mp hn).1
      exact hxy (by rw [hx, ← hy]; exact List.mem_cons_self y ys)

theorem nodup_pair_length_le_two {α : Type _} (l : List α) (a b : α)
    (hn : l.Nodup) (h : ∀ x ∈ l, x = a ∨ x = b) : l.length ≤ 2 := by
  cases l with
  | nil => simp
  | cons x xs =>
    have hnx : x ∉ xs := (List.nodup_cons.mp hn).1
    have hnxs : xs.Nodup := (List.nodup_cons.mp hn).2
    have hbound : xs.length ≤ 1 := by
      rcases h x (List.mem_cons_self x xs) with rfl | rfl
      · refine nodup_all_eq_length_le_one xs b hnxs ?_
        intro y hy
        rcases h y (List.mem_cons_of_mem _ hy) with h1 | h1
        · exact absurd (h1 ▸ hy) hnx
        · exact h1
      · refine nodup_all_eq_length_le_one xs a hnxs ?_
        intro y hy
        rcases h y (List.mem_cons_of_mem _ hy) with h1 | h1
        · exact h1
        · exact absurd (h1 ▸ hy) hnx
    simp only [List.length_cons]
    omega

theorem store_length_le_two (s : Store) (a b : String) (hwf : WF s)
    (h : ∀ x ∈ s.map Prod.fst, x = a ∨ x = b) : s.length ≤ 2 := by
  have := nodup_pair_length_le_two (s.map Prod.fst) a b hwf h
  simpa using this

theorem keys_nextFrameIndex (k : String) (n now : Nat) (s : Store) (k' : String)
    (hk' : k' ∈ ((nextFrameIndex k n now s).2).map Prod.fst) :
    k' = k ∨ k' ∈ s.map Prod.fst := by
  by_cases hn : n = 0
  · simp only [nextFrameIndex, if_pos hn] at hk'
    exact Or.inr hk'
  · rw [nextFrameIndex_snd k n now s hn] at hk'
    have hk2 : k' ∈ (mapSet s k ⟨(entryIdx s k + 1) % n, now⟩).map Prod.fst := by
      unfold evictOver at hk'
      split at hk'
      · rw [List.map_drop] at hk'
        exact (List.drop_sublist _ _).subset hk'
      · exact hk'
    by_cases hcase : mapGet s k = none
    · rw [keys_mapSet_absent _ _ _ hcase] at hk2
      rcases List.mem_append.mp hk2 with h1 | h1
      · exact Or.inr h1
      · exact Or.inl (List.mem_singleton.mp h1)
    · rw [keys_mapSet_present _ _ _ hcase] at hk2
      exact Or.inr hk2

/-- Inductive core of noninterference: run a trace of requests for the two
fingerprints `fp1` and `fp2` on a store `sF`, and `fp2`'s requests alone on a
store `sA`; as long as both stores are well-formed, keyed only by the two
fingerprints (so the capacity eviction never fires), and agree on `fp2`'s
entry, the outputs `fp2` observes agree. -/
theorem noninterference_aux (fp1 fp2 : String) (hne : fp1 ≠ fp2) :
    ∀ (t : List Req) (sF sA : Store),
      WF sF → WF sA →
      (∀ x ∈ sF.map Prod.fst, x = fp1 ∨ x = fp2) →
      (∀ x ∈ sA.map Prod.fst, x = fp1 ∨ x = fp2) →
      mapGet sF fp2 = mapGet sA fp2 →
      (∀ r ∈ t, r.1 = fp1 ∨ r.1 = fp2) →
      outputsFor fp2 t sF = ((runTrace (traceFor fp2 t) sA).1).map Prod.snd := by
  intro t
  induction t with
  | nil =>
    intro sF sA _ _ _ _ _ _
    simp [outputsFor, runTrace, traceFor]
  | cons r rest ih =>
    intro sF sA hwfF hwfA hkF hkA hget hall
    obtain ⟨k, n, tm⟩ := r
    have hall' : ∀ r ∈ rest, r.1 = fp1 ∨ r.1 = fp2 :=
      fun r hr => hall r (List.mem_cons_of_mem _ hr)
    have hlenF : sF.length ≤ 2 := store_length_le_two sF fp1 fp2 hwfF hkF
    have hlenA : sA.length ≤ 2 := store_length_le_two sA fp1 fp2 hwfA hkA
    have hmaxF : sF.length ≤ MAX_VISITORS := by unfold MAX_VISITORS; omega
    have hmaxA : sA.length ≤ MAX_VISITORS := by unfold MAX_VISITORS; omega
    rcases hall _ (List.mem_cons_self _ _) with hk | hk
    · -- the head request is for the other fingerprint fp1
      simp only at hk
      have hkne2 : ¬(k = fp2) := by rw [hk]; exact hne
      have htf : traceFor fp2 ((k, n, tm) :: rest) = traceFor fp2 rest := by
        simp [traceFor, hkne2]
      have hof : outputsFor fp2 ((k, n, tm) :: rest) sF =
          outputsFor fp2 rest (nextFrameIndex k n tm sF).2 := by
        simp [outputsFor, runTrace, hkne2]
      rw [htf, hof]
      by_cases hn : n = 0
      · have hstep : nextFrameIndex k n tm sF = (0, sF) := by
          simp [nextFrameIndex, hn]
        rw [hstep]
        exact ih sF sA hwfF hwfA hkF hkA hget hall'
      · have hget' : mapGet (nextFrameIndex k n tm sF).2 fp2 = mapGet sA fp2 := by
          rw [mapGet_nextFrameIndex_ne k fp2 n tm sF hn
            (fun h2 => hne (hk ▸ h2).symm) (by unfold MAX_VISITORS; omega)]
          exact hget
        refine ih _ sA (WF_nextFrameIndex k n tm sF hwfF) hwfA ?_ hkA hget' hall'
        intro x hx
        rcases keys_nextFrameIndex k n tm sF x hx with h1 | h1
        · exact Or.inl (h1.trans hk)
        · exact hkF x h1
    · -- the head request is for fp2 itself
      simp only at hk
      have htf : traceFor fp2 ((k, n, tm) :: rest) =
          (k, n, tm) :: traceFor fp2 rest := by
        simp [traceFor, hk]
      have hof : outputsFor fp2 ((k, n, tm) :: rest) sF =
          (nextFrameIndex k n tm sF).1 ::
            outputsFor fp2 rest (nextFrameIndex k n tm sF).2 := by
        simp [outputsFor, runTrace, hk]
      have hrhs : ((runTrace ((k, n, tm) :: traceFor fp2 rest) sA).1).map Prod.snd =
          (nextFrameIndex k n tm sA).1 ::
            ((runTrace (traceFor fp2 rest) (nextFrameIndex k n tm sA).2).1).map
              Prod.snd := by
        simp [runTrace]
      rw [htf, hof, hrhs]
      by_cases hn : n = 0
      · have hstepF : nextFrameIndex k n tm sF = (0, sF) := by
          simp [nextFrameIndex, hn]
        have hstepA : nextFrameIndex k n tm sA = (0, sA) := by
          simp [nextFrameIndex, hn]
        rw [hstepF, hstepA]
        exact congrArg _ (ih sF sA hwfF hwfA hkF hkA hget hall')
      · have hidx : entryIdx sF k = entryIdx sA k := by
          rw [hk]
          simp [entryIdx, hget]
        have hhead : (nextFrameIndex k n tm sF).1 = (nextFrameIndex k n tm sA).1 := by
          rw [nextFrameIndex_fst k n tm sF hn, nextFrameIndex_fst k n tm sA hn, hidx]
        have hget' : mapGet (nextFrameIndex k n tm sF).2 fp2 =
            mapGet (nextFrameIndex k n tm sA).2 fp2 := by
          rw [← hk]
          rw [mapGet_nextFrameIndex_self k n tm sF hn hmaxF,
            mapGet_nextFrameIndex_self k n tm sA hn hmaxA, hidx]
        rw [hhead]
        refine congrArg _ (ih _ _ (WF_nextFrameIndex k n tm sF hwfF)
          (WF_nextFrameIndex k n tm sA hwfA) ?_ ?_ hget' hall')
        · intro x hx
          rcases keys_nextFrameIndex k n tm sF x hx with h1 | h1
          · exact Or.inr (h1.trans hk)
          · exact hkF x h1
        · intro x hx
          rcases keys_nextFrameIndex k n tm sA x hx with h1 | h1
          · exact Or.inr (h1.trans hk)
          · exact hkA x h1

/-- C5.  For any two distinct fingerprints `fp1` and `fp2` and any
interleaving of their `GetAndAdvance` requests on a well-formed store keyed
only by the two fingerprints (in particular the empty store), the sequence of
indices returned to `fp2` equals the sequence `fp2` would observe running its
own requests alone on the same store: two-run noninterference across
fingerprints. -/
theorem claim5_noninterference (fp1 fp2 : String) (t : List Req) (s : Store)
    (hne : fp1 ≠ fp2) (hwf : WF s)
    (hkeys : ∀ x ∈ s.map Prod.fst, x = fp1 ∨ x = fp2)
    (hall : ∀ r ∈ t, r.1 = fp1 ∨ r.1 = fp2) :
    outputsFor fp2 t s = ((runTrace (traceFor fp2 t) s).1).map Prod.snd :=
  noninterference_aux fp1 fp2 hne t s s hwf hwf hkeys hkeys rfl hall

/-- Witness for C5: interleaving `a, b, a, b` with three frames on the empty
store shows `b` the indices `0, 1`, exactly what `b`'s two requests alone
produce. -/
theorem claim5_noninterference_witness :
    ("a" ≠ "b" ∧ WF ([] : Store)) ∧
      outputsFor "b" [("a", 3, 0), ("b", 3, 1), ("a", 3, 2), ("b", 3, 3)] [] =
        ((runTrace (traceFor "b"
          [("a", 3, 0), ("b", 3, 1), ("a", 3, 2), ("b", 3, 3)]) []).1).map
            Prod.snd :=
  ⟨⟨by decide, by simp [WF]⟩,
    claim5_noninterference "a" "b"
      [("a", 3, 0), ("b", 3, 1), ("a", 3, 2), ("b", 3, 3)] []
      (by decide) (by simp [WF]) (by simp) (by decide)⟩

/-- C2 (failing input).  The claim says a stale stored index is taken modulo
the current frame count and never returned out of range.  The code does not:
with a stored entry `{ idx: 5 }` (written while a larger animation was
loaded) and a shrunk frame count of 3, `nextFrameIndex` returns the raw
stored index 5, which is not `< 3`; the worker's `getNextFrameIndex` returns
5 identically.  Only the newly stored index `(5 + 1) % 3 = 0` is reduced. -/
theorem claim2_stale_index_returned_out_of_range :
    (nextFrameIndex "fp" 3 100 [("fp", ⟨5, 0⟩)]).1 = 5 ∧
      ¬((nextFrameIndex "fp" 3 100 [("fp", ⟨5, 0⟩)]).1 < 3) ∧
      (getNextFrameIndex (some 5) 3).1 = 5 ∧
      mapGet (nextFrameIndex "fp" 3 100 [("fp", ⟨5, 0⟩)]).2 "fp" =
        some ⟨0, 100⟩ := by
  decide

/-- C3.  After every completed `nextFrameIndex` call with a positive frame
count, the visitor store holds at most `MAX_VISITORS` entries, and what
remains is a suffix of the upserted insertion-ordered map: eviction removes
entries from the front of insertion order only, i.e. the earliest-inserted
(FIFO) entries go first, until the size is back at the cap. -/
theorem claim3_capacity_bound_fifo_eviction (key : String) (n now : Nat)
    (s : Store) (hn : 0 < n) :
    ((nextFrameIndex key n now s).2).length ≤ MAX_VISITORS ∧
      (nextFrameIndex key n now s).2 <:+
        mapSet s key ⟨(entryIdx s key + 1) % n, now⟩ ∧
      ((nextFrameIndex key n now s).2).length =
        min ((mapSet s key ⟨(entryIdx s key + 1) % n, now⟩).length) MAX_VISITORS := by
  have hn' : n ≠ 0 := by omega
  refine ⟨length_nextFrameIndex_le key n now s hn', ?_, ?_⟩
  · rw [nextFrameIndex_snd key n now s hn']
    unfold evictOver
    split
    · exact ⟨(mapSet s key ⟨(entryIdx s key + 1) % n, now⟩).take _,
        List.take_append_drop _ _⟩
    · exact List.suffix_refl _
  · rw [nextFrameIndex_snd key n now s hn']
    unfold evictOver
    split
    · rw [List.length_drop]
      omega
    · omega

/-- Witness for C3 at a concrete call on the empty store. -/
theorem claim3_capacity_bound_fifo_eviction_witness :
    0 < 1 ∧
      (((nextFrameIndex "a" 1 0 []).2).length ≤ MAX_VISITORS ∧
        (nextFrameIndex "a" 1 0 []).2 <:+ mapSet [] "a" ⟨(entryIdx [] "a" + 1) % 1, 0⟩ ∧
        ((nextFrameIndex "a" 1 0 []).2).length =
          min ((mapSet [] "a" ⟨(entryIdx [] "a" + 1) % 1, 0⟩).length) MAX_VISITORS) :=
  ⟨by decide, claim3_capacity_bound_fifo_eviction "a" 1 0 [] (by decide)⟩

/-- C4.  One run of the TTL sweep keeps exactly the entries whose `lastAccess`
is within the TTL at sweep time: for every key, the entry survives the sweep
iff it was present and `now - accessedAt ≤ TTL_MS`; an entry older than the
TTL is absent afterwards. -/
theorem claim4_ttl_sweep_exact (now : Nat) (k : String) :
    ∀ (s : Store), WF s →
      mapGet (sweep now s) k = (mapGet s k).bind
        fun e => if now - e.accessedAt ≤ TTL_MS then some e else none := by
  intro s
  induction s with
  | nil => intro _; simp [sweep, mapGet]
  | cons p rest ih =>
    intro hwf
    have hx : p.1 ∉ rest.map Prod.fst := by
      unfold WF at hwf
      rw [List.map_cons] at hwf
      exact (List.nodup_cons.mp hwf).1
    have hrest : WF rest := by
      unfold WF at hwf ⊢
      rw [List.map_cons] at hwf
      exact (List.nodup_cons.mp hwf).2
    have hbind : ∀ e : Entry, (some e).bind
        (fun e => if now - e.accessedAt ≤ TTL_MS then some e else none) =
        if now - e.accessedAt ≤ TTL_MS then some e else none := fun _ => rfl
    by_cases hk : p.1 = k
    · by_cases hq : now - p.2.accessedAt ≤ TTL_MS
      · simp only [sweep, List.filter_cons]
        rw [if_pos (by simpa using hq)]
        simp only [mapGet, if_pos hk, hbind]
        rw [if_pos hq]
      · simp only [sweep, List.filter_cons]
        rw [if_neg (by simpa using hq)]
        have hnone : mapGet (List.filter
            (fun p => decide (now - p.2.accessedAt ≤ TTL_MS)) rest) k = none := by
          rw [mapGet_eq_none_iff]
          intro hmem
          have hsub : ((List.filter
              (fun p => decide (now - p.2.accessedAt ≤ TTL_MS)) rest).map
                Prod.fst).Sublist (rest.map Prod.fst) :=
            (List.filter_sublist rest).map Prod.fst
          rw [← hk] at hmem
          exact hx (hsub.subset hmem)
        rw [hnone]
        simp only [mapGet, if_pos hk, hbind]
        rw [if_neg hq]
    · simp only [sweep, List.filter_cons]
      have hrec := ih hrest
      unfold sweep at hrec
      split
      · simp only [mapGet, if_neg hk]
        exact hrec
      · simp only [mapGet, if_neg hk]
        exact hrec

/-- Witness for C4: at sweep time 5,000,000 ms, the entry last touched at 0
(idle 5,000,000 ms > TTL) is removed while the one touched at 4,000,000 ms
(idle 1,000,000 ms ≤ TTL) survives. -/
theorem claim4_ttl_sweep_exact_witness :
    (WF [("a", ⟨1, 0⟩), ("b", ⟨2, 4000000⟩)] ∧
      mapGet (sweep 5000000 [("a", ⟨1, 0⟩), ("b", ⟨2, 4000000⟩)]) "a" =
        (mapGet [("a", ⟨1, 0⟩), ("b", ⟨2, 4000000⟩)] "a").bind
          (fun e => if 5000000 - e.accessedAt ≤ TTL_MS then some e else none)) ∧
      mapGet (sweep 5000000 [("a", ⟨1, 0⟩), ("b", ⟨2, 4000000⟩)]) "a" = none ∧
      mapGet (sweep 5000000 [("a", ⟨1, 0⟩), ("b", ⟨2, 4000000⟩)]) "b" = some ⟨2, 4000000⟩ :=
  ⟨⟨by unfold WF; decide,
    claim4_ttl_sweep_exact 5000000 "a" [("a", ⟨1, 0⟩), ("b", ⟨2, 4000000⟩)]
      (by unfold WF; decide)⟩,
    by decide, by decide⟩

/-- C1.  For every fingerprint `fp` and fixed frame count `n > 0`, a sequence
of `GetAndAdvance(fp, n)` calls starting from a well-formed store with no
entry for `fp` (and touched only by those calls, so nothing evicts or expires
`fp`'s entry) returns the indices `0, 1, …, n-1, 0, 1, …` cyclically: the
`j`-th call returns `j % n`, i.e. each call returns the stored prior index
(`0` when absent) and stores `(prior + 1) % n`. -/
theorem claim1_get_and_advance_cyclic (fp : String) (n : Nat) (t : List Req)
    (s : Store) (hn : 0 < n) (hwf : WF s) (habs : mapGet s fp = none)
    (hall : ∀ r ∈ t, r.1 = fp ∧ r.2.1 = n) :
    ((runTrace t s).1).map Prod.snd = (List.range t.length).map fun j => j % n := by
  have hn' : n ≠ 0 := by omega
  cases t with
  | nil => simp [runTrace]
  | cons r rest =>
    obtain ⟨hk, hc⟩ := hall r (List.mem_cons_self r rest)
    obtain ⟨k, nn, tm⟩ := r
    simp only at hk hc
    subst hk
    subst hc
    simp only [runTrace, List.map_cons, List.length_cons]
    have hout : (nextFrameIndex k nn tm s).1 = 0 := by
      rw [nextFrameIndex_fst k nn tm s hn']
      simp [entryIdx, habs]
    have hpost := mapGet_nextFrameIndex_absent k nn tm s hn' habs
    have htail := runTrace_cycle_aux k nn hn' rest (nextFrameIndex k nn tm s).2
      1 ⟨1 % nn, tm⟩ (WF_nextFrameIndex k nn tm s hwf)
      (length_nextFrameIndex_le k nn tm s hn') hpost rfl
      (fun r hr => hall r (List.mem_cons_of_mem _ hr))
    rw [htail, hout, List.range_succ_eq_map, List.map_cons, List.map_map]
    have hfun : ((fun j => j % nn) ∘ Nat.succ) = fun j => (1 + j) % nn := by
      funext j
      simp only [Function.comp]
      congr 1
      omega
    rw [hfun]
    simp

/-- Witness for C1: three frames, four calls from a fresh fingerprint on the
empty store observe `0, 1, 2, 0` — the spec's end-to-end scenario. -/
theorem claim1_get_and_advance_cyclic_witness :
    (0 < 3 ∧ WF ([] : Store) ∧ mapGet ([] : Store) "v" = none) ∧
      ((runTrace (List.replicate 4 (("v", 3, 0) : Req)) ([] : Store)).1).map Prod.snd =
        (List.range 4).map (fun j => j % 3) :=
  ⟨⟨by decide, by simp [WF], by decide⟩,
    claim1_get_and_advance_cyclic "v" 3 (List.replicate 4 ("v", 3, 0)) []
      (by decide) (by simp [WF]) (by decide) (by decide)⟩

/-- C6 counterexample.  At `epochDays + offsetDays = -1` (a negative total,
reachable since `DAY_OFFSET` may be any integer) with two animations, the
code yields `undefined` (`none`, because the JS `%` remainder is negative),
so it differs from the spec's `sortedIds[days mod len]` formula, and adding
`len(sortedIds) = 2` days changes the result — the claimed cyclicity for
every integer offset fails. -/
theorem claim6_counterexample_negative_days :
    getAnimationForToday [10, 20] (-1 + 2) ≠ getAnimationForToday [10, 20] (-1) ∧
      getAnimationForToday [10, 20] (-1) ≠ selectForTodaySpec [10, 20] (-1) := by
  decide

/-- C6 (amended).  For a nonempty id list and a nonnegative total day count
`epochDays + offsetDays ≥ 0` (always true unless the configured offset pulls
the day count below the epoch), `getAnimationForToday` computes exactly the
spec formula `sortedIds[(epochDays + offsetDays) mod len(sortedIds)]`, and
increasing the day count by `len(sortedIds)` returns the same id (cyclic).
Determinism is inherent: the embedding is a pure function of its inputs. -/
theorem claim6_selection_formula_cyclic (ids : List Nat) (days : Int)
    (hne : ids ≠ []) (hnn : 0 ≤ days) :
    getAnimationForToday ids days = selectForTodaySpec ids days ∧
      getAnimationForToday ids (days + ids.length) = getAnimationForToday ids days := by
  have hlen : ids.length ≠ 0 := fun h => hne (List.length_eq_zero.mp h)
  have hlenI : (ids.length : Int) ≠ 0 := by exact_mod_cast hlen
  obtain ⟨m, rfl⟩ := Int.eq_ofNat_of_zero_le hnn
  have h1 : Int.tmod (m : Int) (ids.length : Int) = (m : Int) % (ids.length : Int) := by
    rw [← Int.ofNat_tmod, ← Int.ofNat_emod]
  constructor
  · unfold getAnimationForToday selectForTodaySpec jsIndex
    rw [if_neg hlen, h1, if_pos (Int.emod_nonneg _ hlenI)]
  · unfold getAnimationForToday
    rw [if_neg hlen, if_neg hlen]
    have h2 : Int.tmod ((m : Int) + ids.length) (ids.length : Int) =
        Int.tmod (m : Int) (ids.length : Int) := by
      have hc : ((m : Int) + (ids.length : Int)) = ((m + ids.length : Nat) : Int) := by
        push_cast
        ring
      rw [hc, ← Int.ofNat_tmod, ← Int.ofNat_tmod, Nat.add_mod_right]
    rw [h2]

/-- Witness for C6 (amended) at two ids and day count 5: both conjuncts hold
concretely. -/
theorem claim6_selection_formula_cyclic_witness :
    (([3, 7] : List Nat) ≠ [] ∧ (0 : Int) ≤ 5) ∧
      (getAnimationForToday [3, 7] 5 = selectForTodaySpec [3, 7] 5 ∧
        getAnimationForToday [3, 7] (5 + ([3, 7] : List Nat).length) =
          getAnimationForToday [3, 7] 5) :=
  ⟨⟨by decide, by decide⟩,
    claim6_selection_formula_cyclic [3, 7] 5 (by decide) (by decide)⟩

/-- C7 (failing input).  The claim says fingerprint construction caps the
combined address + user-agent length at 511 bytes for every input; the
`server.js` construction (line 118) applies no cap at all: its key length is
always `ip.length + 1 + ua.length`, so a 600-byte user agent yields a
608-byte combined length, far over 511.  (The `part_000` and worker variants
do truncate; the base variant is the slip.) -/
theorem claim7_visitor_key_uncapped :
    (∀ ip ua : String, (visitorKey ip ua).length = ip.length + 1 + ua.length) ∧
      511 < (visitorKey "1.2.3.4" (String.mk (List.replicate 600 'a'))).length := by
  have hgen : ∀ ip ua : String, (visitorKey ip ua).length = ip.length + 1 + ua.length := by
    intro ip ua
    have hb : ("|" : String).length = 1 := rfl
    simp [visitorKey, String.length_append, hb]
  refine ⟨hgen, ?_⟩
  rw [hgen]
  have h2 : (String.mk (List.replicate 600 'a')).length =
      (List.replicate 600 'a').length := rfl
  rw [h2, List.length_replicate]
  decide

/-- C8.  `loadFrames` orders the kept `.svg.gz` files by the embedded numeric
frame number: the result is always sorted by `frameNum` and is a permutation
of the filtered input; concretely `frame2.svg.gz` precedes `frame10.svg.gz`
even though `"frame10"` sorts before `"frame2"` lexicographically. -/
theorem claim8_numeric_frame_order :
    (∀ files : List String,
      List.Sorted (fun a b => frameNum a ≤ frameNum b) (loadFrames files) ∧
        (loadFrames files).Perm (files.filter fun f => jsEndsWith f ".svg.gz")) ∧
      loadFrames ["frame10.svg.gz", "frame2.svg.gz"] =
        ["frame2.svg.gz", "frame10.svg.gz"] := by
  constructor
  · intro files
    constructor
    · have htot : IsTotal String (fun a b => frameNum a ≤ frameNum b) :=
        ⟨fun a b => Nat.le_total (frameNum a) (frameNum b)⟩
      have htrans : IsTrans String (fun a b => frameNum a ≤ frameNum b) :=
        ⟨fun _ _ _ hab hbc => Nat.le_trans hab hbc⟩
      exact List.sorted_insertionSort _ _
    · exact List.perm_insertionSort _ _
  · decide

/-- C9.  Every request to `GET /` that arrives while the frame store is empty
(no successful load yet) is answered with status 503 and body
`"frames-unavailable"`, leaving the visitor store untouched; the handler is a
total function, so no exception escapes it. -/
theorem claim9_empty_frames_503 (key : String) (now : Nat) (s : Store) :
    handleRoot [] key now s = ({ status := 503, body := some "frames-unavailable" }, s) :=
  rfl

/-- C10.  In the Camo-aware worker variant, every request whose User-Agent or
Via header contains `"github-camo"` is assigned the fixed fingerprint
`"github-camo-global"` regardless of its own hash, so any two such requests
share one visitor key — and hence one KV entry and one common index
sequence. -/
theorem claim10_camo_fixed_fingerprint (ua1 ua2 : String)
    (via1 via2 : Option String) (h1 h2 : String)
    (hc1 : isGitHubCamo ua1 via1 = true) (hc2 : isGitHubCamo ua2 via2 = true) :
    chooseVisitorHash ua1 via1 h1 = "github-camo-global" ∧
      chooseVisitorHash ua2 via2 h2 = chooseVisitorHash ua1 via1 h1 := by
  unfold chooseVisitorHash
  rw [hc1, hc2]
  exact ⟨rfl, rfl⟩

/-- Witness for C10: a Camo user agent and a Camo Via header from different
clients with different hashes map to the same fixed fingerprint. -/
theorem claim10_camo_fixed_fingerprint_witness :
    (isGitHubCamo "github-camo/1.0" none = true ∧
      isGitHubCamo "Mozilla/5.0" (some "1.1 github-camo") = true) ∧
      (chooseVisitorHash "github-camo/1.0" none "hashA" = "github-camo-global" ∧
        chooseVisitorHash "Mozilla/5.0" (some "1.1 github-camo") "hashB" =
          chooseVisitorHash "github-camo/1.0" none "hashA") :=
  ⟨⟨by decide, by decide⟩,
    claim10_camo_fixed_fingerprint "github-camo/1.0" "Mozilla/5.0" none
      (some "1.1 github-camo") "hashA" "hashB" (by decide) (by decide)⟩

end CatAndBall
